import Mathlib

/-!
# Verification of the recursive summarizer core

Shallow embedding of `src/scripts/2025-07-10_summarizer.py`: the recursive,
hierarchical document-structuring engine (`massively_summarize` and its
helpers `produce_gist`, `produce_headers`, `classify_chunks`,
`group_sections`, `summarize_sections`).

Modelling decisions, matching the source line by line:

* The four opaque language-service operations (`ProduceGist`,
  `ProduceHeaders`, the dynamically-built classifier, `WriteSection`)
  are a parameter `Service` of pure total functions; `WriteSection` may
  return `none` (the source checks `if content is None`).
* The `DSPyParallel` fan-outs are order-preserving maps (the library joins
  results positionally), so `produce_gist` and `classify_chunks` are
  `List.map` over chunks and `summarize_sections` is a map over the
  grouped sections.
* A Python `dict[str, list[str]]` is an association list whose keys are
  unique and kept in first-insertion order.  The dict comprehension
  `{topic: [] for topic in headers}` is `initSections`; the lookup plus
  `append` in the loop of `group_sections` is `appendChunk`; a `KeyError`
  (lookup of a topic that is not a key) is `none`, which aborts the whole
  call, so `group_sections` and `massively_summarize` return `Option`.
* Every call a node makes to the language service is recorded as an
  `Event` in a trace returned next to the result, so that claims about
  which operations run ("never calls propose-headers", recursion depth,
  chunks reaching the leaves) are statable.
* The recursion of `massively_summarize` stops as soon as
  `len(chunks) < 5` or `len(toc_path) >= 3`; each recursive call grows
  the path by one, so from any starting path at most 4 nested calls
  occur.  The embedding therefore runs the fuelled kernel `go` with fuel
  4; `go_fuel_eq` proves any fuel above the needed depth gives the same
  value, so the fuel is a representation artifact only.
* `toc_path[-1]` on an empty list raises `IndexError`; the embedding
  returns `none` at the point where the source would index.
-/

namespace Summarizer

/-- The language-service capability consumed by the core: the four
operations built from dspy signatures in the source. `classify` receives
the proposed header list (the source builds the classifier's output type
from `headers`); `writeSection` may return `none`. -/
structure Service where
  gist : List String → String → String
  produceHeaders : List String → List String → List String
  classify : List String → String → List String → String
  writeSection : List String → List String → Option String

/-- One language-service invocation, recorded in the trace. -/
inductive Event where
  | gistCall (toc_path : List String) (chunk : String)
  | headerCall (toc_path : List String) (chunk_summaries : List String)
  | classifyCall (toc_path : List String) (chunk : String) (headers : List String)
  | writeCall (toc_path : List String) (chunks : List String)
deriving DecidableEq, Repr

/-- The path recorded in an event. -/
def eventPath : Event → List String
  | .gistCall p _ => p
  | .headerCall p _ => p
  | .classifyCall p _ _ => p
  | .writeCall p _ => p

/-- Whether an event is a `write-section` invocation. -/
def isWriteCall : Event → Bool
  | .writeCall _ _ => true
  | _ => false

/-- The chunks handed to a `write-section` invocation ( `[]` for other events). -/
def writeCallChunks : Event → List String
  | .writeCall _ cs => cs
  | _ => []

/-- All chunks that reach `write-section` calls (the leaves of the
recursion tree) in a trace. -/
def leafChunks (evs : List Event) : List String :=
  (evs.map writeCallChunks).flatten

/-- The fallback text of the source:
`"No content generated for this section."`. -/
def sentinelText : String := "No content generated for this section."

/-- `sections = {topic: [] for topic in headers}` (line 63): a dict with
the headers as keys in first-occurrence order, each mapped to `[]`. -/
def initSections (headers : List String) : List (String × List String) :=
  headers.foldl (fun acc h => if h ∈ acc.map Prod.fst then acc else acc ++ [(h, [])]) []

/-- `sections[topic].append(chunk)` (line 65): append `chunk` to the entry
of `topic`; `none` is the `KeyError` raised when `topic` is not a key. -/
def appendChunk : List (String × List String) → String → String → Option (List (String × List String))
  | [], _, _ => none
  | (k, v) :: rest, topic, chunk =>
    if k = topic then some ((k, v ++ [chunk]) :: rest)
    else Option.map (fun r => (k, v) :: r) (appendChunk rest topic chunk)

/-- The loop `for topic, chunk in zip(topics, chunks)` of `group_sections`
(lines 64-65), run over an explicit pair list; the first `KeyError`
aborts the loop. -/
def groupInto : List (String × List String) → List (String × String) → Option (List (String × List String))
  | acc, [] => some acc
  | acc, p :: ps =>
    match appendChunk acc p.1 p.2 with
    | none => none
    | some acc2 => groupInto acc2 ps

/-- `group_sections(topics, chunks, headers)` (lines 62-66). -/
def group_sections (topics chunks headers : List String) : Option (List (String × List String)) :=
  groupInto (initSections headers) (topics.zip chunks)

/-- `produce_gist(toc_path, chunks)` (lines 41-47): one gist per chunk, in
chunk order. -/
def produce_gist (svc : Service) (toc_path chunks : List String) : List String :=
  chunks.map (fun chunk => svc.gist toc_path chunk)

/-- `produce_headers(toc_path, chunk_summaries)` (lines 50-52). -/
def produce_headers (svc : Service) (toc_path chunk_summaries : List String) : List String :=
  svc.produceHeaders toc_path chunk_summaries

/-- `classify_chunks(toc_path, chunks, headers)` (lines 55-59): one topic
per chunk, in chunk order. -/
def classify_chunks (svc : Service) (toc_path chunks headers : List String) : List String :=
  chunks.map (fun chunk => svc.classify toc_path chunk headers)

/-- Trace of the gist fan-out. -/
def gistEvents (toc_path chunks : List String) : List Event :=
  chunks.map (fun chunk => Event.gistCall toc_path chunk)

/-- Trace of the classification fan-out. -/
def classifyEvents (toc_path chunks headers : List String) : List Event :=
  chunks.map (fun chunk => Event.classifyCall toc_path chunk headers)

/-- The service-call trace of an expanded node before grouping: gists in
chunk order, then the single header proposal, then the classifications. -/
def expandEvents (toc_path chunk_summaries chunks headers : List String) : List Event :=
  gistEvents toc_path chunks ++ [Event.headerCall toc_path chunk_summaries]
    ++ classifyEvents toc_path chunks headers

/-- Fuelled kernel of `massively_summarize(toc_path, chunks)`
(lines 80-101).  Returns the produced section text (`none` when the
Python raises: a `KeyError` in `group_sections`, or `toc_path[-1]` on an
empty path) together with the trace of service calls made by the node
and all its descendants.  Fuel only bounds the recursion depth, which the
source bounds by the `len(toc_path) >= 3` test; see `go_fuel_eq`. -/
def go (svc : Service) : Nat → List String → List String → Option String × List Event
  | 0, _, _ => (none, [])
  | fuel + 1, toc_path, chunks =>
    if chunks.length < 5 ∨ 3 ≤ toc_path.length then
      match toc_path.getLast? with
      | none => (none, [Event.writeCall toc_path chunks])
      | some last =>
        match svc.writeSection toc_path chunks with
        | none => (some (last ++ "\n\n" ++ sentinelText), [Event.writeCall toc_path chunks])
        | some content => (some (last ++ "\n\n" ++ content), [Event.writeCall toc_path chunks])
    else
      let chunk_summaries := produce_gist svc toc_path chunks
      let headers := produce_headers svc toc_path chunk_summaries
      let topics := classify_chunks svc toc_path chunks headers
      let evs0 := expandEvents toc_path chunk_summaries chunks headers
      match group_sections topics chunks headers with
      | none => (none, evs0)
      | some sections =>
        let results := sections.map (fun s => go svc fuel (toc_path ++ [s.1]) s.2)
        let evs := evs0 ++ (results.map Prod.snd).flatten
        let valid_sections := (results.map Prod.fst).filterMap id
        match toc_path.getLast? with
        | none => (none, evs)
        | some last =>
          if valid_sections.isEmpty then (some (last ++ "\n\n" ++ sentinelText), evs)
          else (some (last ++ "\n\n" ++ String.intercalate "\n\n" valid_sections), evs)

/-- `summarize_sections(toc_path, sections)` (lines 69-77): one recursive
`massively_summarize` call per entry of the grouped sections, in key
order. -/
def summarize_sections (svc : Service) (fuel : Nat) (toc_path : List String) (sections : List (String × List String)) : List (Option String × List Event) :=
  sections.map (fun s => go svc fuel (toc_path ++ [s.1]) s.2)

/-- `massively_summarize(toc_path, chunks)` (lines 80-101); fuel 4 covers
every input (`go_fuel_eq`). -/
def massively_summarize (svc : Service) (toc_path : List String) (chunks : List String) : Option String × List Event :=
  go svc 4 toc_path chunks

/-- The header list an expanded node obtains (line 93): propose-headers on
the gists of its chunks. -/
def nodeHeaders (svc : Service) (toc_path chunks : List String) : List String :=
  produce_headers svc toc_path (produce_gist svc toc_path chunks)

/-- The topic list an expanded node obtains (line 94). -/
def nodeTopics (svc : Service) (toc_path chunks : List String) : List String :=
  classify_chunks svc toc_path chunks (nodeHeaders svc toc_path chunks)

/-- The grouping an expanded node computes (line 95). -/
def nodeGroups (svc : Service) (toc_path chunks : List String) : Option (List (String × List String)) :=
  group_sections (nodeTopics svc toc_path chunks) chunks (nodeHeaders svc toc_path chunks)

/-- The service calls an expanded node makes before recursing. -/
def nodeEvents (svc : Service) (toc_path chunks : List String) : List Event :=
  expandEvents toc_path (produce_gist svc toc_path chunks) chunks (nodeHeaders svc toc_path chunks)

/-- The recursive branch of `massively_summarize` (lines 92-101), with the
children's recursion fuel made explicit. -/
def expand (svc : Service) (fuel : Nat) (toc_path chunks : List String) : Option String × List Event :=
  match nodeGroups svc toc_path chunks with
  | none => (none, nodeEvents svc toc_path chunks)
  | some sections =>
    let results := summarize_sections svc fuel toc_path sections
    let evs := nodeEvents svc toc_path chunks ++ (results.map Prod.snd).flatten
    let valid_sections := (results.map Prod.fst).filterMap id
    match toc_path.getLast? with
    | none => (none, evs)
    | some last =>
      if valid_sections.isEmpty then (some (last ++ "\n\n" ++ sentinelText), evs)
      else (some (last ++ "\n\n" ++ String.intercalate "\n\n" valid_sections), evs)

/-! ## Concrete services used as witnesses and counterexamples -/

/-- A well-behaved service: headers are always `["A", "B"]` and
classification always returns the first proposed header. -/
def svcPlain : Service where
  gist := fun _ c => c
  produceHeaders := fun _ _ => ["A", "B"]
  classify := fun _ _ hs => hs.headD "A"
  writeSection := fun _ cs => some (String.intercalate " " cs)

/-- A service whose classifier answers `"Z"`, a label outside its own
proposed header set `["A"]`. -/
def svcRogue : Service where
  gist := fun _ c => c
  produceHeaders := fun _ _ => ["A"]
  classify := fun _ _ _ => "Z"
  writeSection := fun _ _ => some "w"

/-- A service that proposes an empty header list. -/
def svcNoHeaders : Service where
  gist := fun _ c => c
  produceHeaders := fun _ _ => []
  classify := fun _ _ _ => "A"
  writeSection := fun _ _ => some "w"

/-- A service whose write-section always produces the same text. -/
def svcWrites : Service where
  gist := fun _ c => c
  produceHeaders := fun _ _ => ["A"]
  classify := fun _ _ _ => "A"
  writeSection := fun _ _ => some "Generated text."

/-- A service that proposes `["A", "B"]` but classifies every chunk under
`"A"`, leaving the group of `"B"` empty. -/
def svcOneSided : Service where
  gist := fun _ c => c
  produceHeaders := fun _ _ => ["A", "B"]
  classify := fun _ _ _ => "A"
  writeSection := fun _ _ => some "w"

/-- A service that never produces section text, so every base-case node
returns a sentinel-bodied section; chunks `"c4"` and `"c5"` classify
under `"B"`, the rest under `"A"`. -/
def svcSilent : Service where
  gist := fun _ c => c
  produceHeaders := fun _ _ => ["A", "B"]
  classify := fun _ c _ => if c = "c4" ∨ c = "c5" then "B" else "A"
  writeSection := fun _ _ => none

/-! ## Basic branch lemmas -/

theorem go_base_eq (svc : Service) (fuel : Nat) (toc_path chunks : List String)
    (h : chunks.length < 5 ∨ 3 ≤ toc_path.length) :
    go svc (fuel + 1) toc_path chunks =
      ((toc_path.getLast?).map
        (fun last => last ++ "\n\n" ++ ((svc.writeSection toc_path chunks).getD sentinelText)),
       [Event.writeCall toc_path chunks]) := by
  simp only [go, if_pos h]
  cases toc_path.getLast? <;> cases svc.writeSection toc_path chunks <;> rfl

theorem go_rec_eq (svc : Service) (fuel : Nat) (toc_path chunks : List String)
    (h : ¬(chunks.length < 5 ∨ 3 ≤ toc_path.length)) :
    go svc (fuel + 1) toc_path chunks = expand svc fuel toc_path chunks := by
  simp only [go, if_neg h]
  rfl

/-- Any two sufficient fuels compute the same value: the fuel in
`massively_summarize` is a representation device, not program logic. -/
theorem go_fuel_eq (svc : Service) : ∀ (f g : Nat) (toc_path chunks : List String),
    3 - toc_path.length < f → 3 - toc_path.length < g →
    go svc f toc_path chunks = go svc g toc_path chunks := by
  intro f
  induction f with
  | zero => intro g toc chunks hf; omega
  | succ f ih =>
    intro g toc chunks hf hg
    cases g with
    | zero => omega
    | succ g =>
      by_cases hb : chunks.length < 5 ∨ 3 ≤ toc.length
      · rw [go_base_eq svc f toc chunks hb, go_base_eq svc g toc chunks hb]
      · rw [go_rec_eq svc f toc chunks hb, go_rec_eq svc g toc chunks hb]
        have hlen : toc.length < 3 := by omega
        have hfun : (fun s : String × List String => go svc f (toc ++ [s.1]) s.2)
            = (fun s : String × List String => go svc g (toc ++ [s.1]) s.2) := by
          funext s
          apply ih
          · simp only [List.length_append, List.length_singleton]; omega
          · simp only [List.length_append, List.length_singleton]; omega
        unfold expand summarize_sections
        rw [hfun]

/-! ## Grouping lemmas: `group_sections` as a dict-building loop -/

theorem appendChunk_keys : ∀ (acc : List (String × List String)) (t c : String)
    (acc2 : List (String × List String)), appendChunk acc t c = some acc2 →
    acc2.map Prod.fst = acc.map Prod.fst := by
  intro acc
  induction acc with
  | nil => intro t c acc2 h; simp [appendChunk] at h
  | cons e rest ih =>
    intro t c acc2 h
    obtain ⟨k, v⟩ := e
    by_cases hk : k = t
    · simp only [appendChunk, if_pos hk] at h
      cases h
      rfl
    · simp only [appendChunk, if_neg hk] at h
      cases hr : appendChunk rest t c with
      | none => rw [hr] at h; simp at h
      | some r =>
        rw [hr] at h
        simp only [Option.map_some'] at h
        cases h
        simp [ih t c r hr]

theorem appendChunk_eq_none_iff : ∀ (acc : List (String × List String)) (t c : String),
    appendChunk acc t c = none ↔ t ∉ acc.map Prod.fst := by
  intro acc
  induction acc with
  | nil => intro t c; simp [appendChunk]
  | cons e rest ih =>
    intro t c
    obtain ⟨k, v⟩ := e
    by_cases hk : k = t
    · simp [appendChunk, if_pos hk, hk]
    · simp only [appendChunk, if_neg hk, Option.map_eq_none', ih, List.map_cons,
        List.mem_cons]
      constructor
      · intro h hmem
        rcases hmem with hmem | hmem
        · exact hk hmem.symm
        · exact h hmem
      · intro h hmem
        exact h (Or.inr hmem)

theorem appendChunk_of_mem (acc : List (String × List String)) (t c : String)
    (h : t ∈ acc.map Prod.fst) :
    ∃ acc2, appendChunk acc t c = some acc2 := by
  cases ha : appendChunk acc t c with
  | none => exact absurd h ((appendChunk_eq_none_iff acc t c).mp ha)
  | some acc2 => exact ⟨acc2, rfl⟩

/-- Appending into the (unique) entry of `t`: the entry-wise description. -/
theorem appendChunk_char : ∀ (acc : List (String × List String)) (t c : String)
    (acc2 : List (String × List String)), (acc.map Prod.fst).Nodup →
    appendChunk acc t c = some acc2 →
    acc2 = acc.map (fun e => if e.1 = t then (e.1, e.2 ++ [c]) else e) := by
  intro acc
  induction acc with
  | nil => intro t c acc2 _ h; simp [appendChunk] at h
  | cons e rest ih =>
    intro t c acc2 hnd h
    obtain ⟨k, v⟩ := e
    simp only [List.map_cons, List.nodup_cons] at hnd
    by_cases hk : k = t
    · simp only [appendChunk, if_pos hk] at h
      cases h
      subst hk
      simp only [List.map_cons, if_pos rfl]
      have : rest.map (fun e => if e.1 = k then (e.1, e.2 ++ [c]) else e) = rest.map id := by
        apply List.map_congr_left
        intro a ha
        have : a.1 ≠ k := by
          intro hak
          exact hnd.1 (hak ▸ List.mem_map_of_mem Prod.fst ha)
        simp [this]
      simp [this]
    · simp only [appendChunk, if_neg hk] at h
      cases hr : appendChunk rest t c with
      | none => rw [hr] at h; simp at h
      | some r =>
        rw [hr] at h
        simp only [Option.map_some'] at h
        cases h
        have hkt : ¬((k, v).1 = t) := hk
        simp only [List.map_cons, if_neg hkt]
        rw [ih t c r hnd.2 hr]

theorem groupInto_keys : ∀ (pairs : List (String × String)) (acc gs : List (String × List String)),
    groupInto acc pairs = some gs → gs.map Prod.fst = acc.map Prod.fst := by
  intro pairs
  induction pairs with
  | nil => intro acc gs h; cases h; rfl
  | cons p ps ih =>
    intro acc gs h
    simp only [groupInto] at h
    cases ha : appendChunk acc p.1 p.2 with
    | none => rw [ha] at h; exact absurd h (by simp)
    | some acc2 =>
      rw [ha] at h
      rw [ih acc2 gs h, appendChunk_keys acc p.1 p.2 acc2 ha]

theorem groupInto_of_mem : ∀ (pairs : List (String × String)) (acc : List (String × List String)),
    (∀ p ∈ pairs, p.1 ∈ acc.map Prod.fst) →
    ∃ gs, groupInto acc pairs = some gs := by
  intro pairs
  induction pairs with
  | nil => intro acc _; exact ⟨acc, rfl⟩
  | cons p ps ih =>
    intro acc hmem
    obtain ⟨acc2, ha⟩ := appendChunk_of_mem acc p.1 p.2 (hmem p (List.mem_cons_self p ps))
    obtain ⟨gs, hgs⟩ := ih acc2 (by
      intro q hq
      rw [appendChunk_keys acc p.1 p.2 acc2 ha]
      exact hmem q (List.mem_cons_of_mem p hq))
    exact ⟨gs, by simp only [groupInto, ha]; exact hgs⟩

theorem groupInto_none : ∀ (pairs : List (String × String)) (acc : List (String × List String)),
    (∃ p ∈ pairs, p.1 ∉ acc.map Prod.fst) →
    groupInto acc pairs = none := by
  intro pairs
  induction pairs with
  | nil => intro acc h; simp at h
  | cons q ps ih =>
    intro acc h
    obtain ⟨p, hp, hbad⟩ := h
    rcases List.mem_cons.mp hp with rfl | hp
    · simp only [groupInto, (appendChunk_eq_none_iff acc p.1 p.2).mpr hbad]
    · cases ha : appendChunk acc q.1 q.2 with
      | none => simp only [groupInto, ha]
      | some acc2 =>
        simp only [groupInto, ha]
        apply ih acc2
        exact ⟨p, hp, by rw [appendChunk_keys acc q.1 q.2 acc2 ha]; exact hbad⟩

/-- The full description of a successful grouping run over unique keys:
every entry ends as its initial contents extended by the second
components of the pairs whose key matches, in input order. -/
theorem groupInto_char : ∀ (pairs : List (String × String)) (acc gs : List (String × List String)),
    (acc.map Prod.fst).Nodup → groupInto acc pairs = some gs →
    gs = acc.map (fun e => (e.1, e.2 ++ (pairs.filter (fun p => p.1 = e.1)).map Prod.snd)) := by
  intro pairs
  induction pairs with
  | nil =>
    intro acc gs _ h
    cases h
    have : (fun e : String × List String =>
        (e.1, e.2 ++ (List.filter (fun p => decide (p.1 = e.1)) []).map Prod.snd)) = fun e => e := by
      funext e
      simp
    simp [this]
  | cons q ps ih =>
    intro acc gs hnd h
    simp only [groupInto] at h
    cases ha : appendChunk acc q.1 q.2 with
    | none => rw [ha] at h; exact absurd h (by simp)
    | some acc2 =>
      rw [ha] at h
      have hkeys := appendChunk_keys acc q.1 q.2 acc2 ha
      have hchar := appendChunk_char acc q.1 q.2 acc2 hnd ha
      have := ih acc2 gs (hkeys ▸ hnd) h
      rw [this, hchar, List.map_map]
      apply List.map_congr_left
      intro e _
      by_cases he : e.1 = q.1
      · simp only [Function.comp, if_pos he, List.filter_cons]
        have : decide (q.1 = e.1) = true := by simp [he.symm]
        simp [this, he, List.append_assoc]
      · simp only [Function.comp, if_neg he, List.filter_cons]
        have : decide (q.1 = e.1) = false := by
          simp only [decide_eq_false_iff_not]
          intro hq
          exact he hq.symm
        simp [this]

/-- Moving one chunk into the dict is one append at the multiset level. -/
theorem appendChunk_perm : ∀ (acc : List (String × List String)) (t c : String)
    (acc2 : List (String × List String)), appendChunk acc t c = some acc2 →
    ((acc2.map Prod.snd).flatten).Perm ((acc.map Prod.snd).flatten ++ [c]) := by
  intro acc
  induction acc with
  | nil => intro t c acc2 h; simp [appendChunk] at h
  | cons e rest ih =>
    intro t c acc2 h
    obtain ⟨k, v⟩ := e
    by_cases hk : k = t
    · simp only [appendChunk, if_pos hk] at h
      cases h
      simp only [List.map_cons, List.flatten_cons, List.append_assoc]
      apply List.Perm.append_left v
      exact List.perm_append_comm.trans (List.Perm.refl _)
    · simp only [appendChunk, if_neg hk] at h
      cases hr : appendChunk rest t c with
      | none => rw [hr] at h; simp at h
      | some r =>
        rw [hr] at h
        simp only [Option.map_some'] at h
        cases h
        simp only [List.map_cons, List.flatten_cons, List.append_assoc]
        exact List.Perm.append_left v (ih t c r hr)

/-- A successful grouping loop preserves the chunk multiset. -/
theorem groupInto_perm : ∀ (pairs : List (String × String)) (acc gs : List (String × List String)),
    groupInto acc pairs = some gs →
    ((gs.map Prod.snd).flatten).Perm ((acc.map Prod.snd).flatten ++ pairs.map Prod.snd) := by
  intro pairs
  induction pairs with
  | nil => intro acc gs h; cases h; simp
  | cons q ps ih =>
    intro acc gs h
    simp only [groupInto] at h
    cases ha : appendChunk acc q.1 q.2 with
    | none => rw [ha] at h; exact absurd h (by simp)
    | some acc2 =>
      rw [ha] at h
      have h1 := ih acc2 gs h
      have h2 := appendChunk_perm acc q.1 q.2 acc2 ha
      have h4 := h1.trans (h2.append_right (ps.map Prod.snd))
      have h5 : ((acc.map Prod.snd).flatten ++ [q.2]) ++ ps.map Prod.snd
          = (acc.map Prod.snd).flatten ++ (q :: ps).map Prod.snd := by
        simp [List.append_assoc]
      exact h5 ▸ h4

/-- Invariants of the dict comprehension `{topic: [] for topic in headers}`:
empty values, unique keys, keys = headers up to duplicates. -/
theorem initSections_invariant : ∀ (headers : List String) (acc : List (String × List String)),
    (∀ e ∈ acc, e.2 = ([] : List String)) → ((acc.map Prod.fst).Nodup) →
    (∀ e ∈ headers.foldl (fun acc h => if h ∈ acc.map Prod.fst then acc else acc ++ [(h, [])]) acc,
      e.2 = ([] : List String)) ∧
    (((headers.foldl (fun acc h => if h ∈ acc.map Prod.fst then acc else acc ++ [(h, [])]) acc).map Prod.fst).Nodup) ∧
    (∀ x, x ∈ (headers.foldl (fun acc h => if h ∈ acc.map Prod.fst then acc else acc ++ [(h, [])]) acc).map Prod.fst
      ↔ x ∈ acc.map Prod.fst ∨ x ∈ headers) := by
  intro headers
  induction headers with
  | nil =>
    intro acc h1 h2
    refine ⟨h1, h2, ?_⟩
    intro x
    simp
  | cons h hs ih =>
    intro acc h1 h2
    simp only [List.foldl_cons]
    by_cases hmem : h ∈ acc.map Prod.fst
    · rw [if_pos hmem]
      obtain ⟨g1, g2, g3⟩ := ih acc h1 h2
      refine ⟨g1, g2, ?_⟩
      intro x
      rw [g3 x]
      simp only [List.mem_cons]
      constructor
      · intro hx
        tauto
      · intro hx
        rcases hx with hx | hx | hx
        · exact Or.inl hx
        · subst hx
          exact Or.inl hmem
        · exact Or.inr hx
    · rw [if_neg hmem]
      have h1a : ∀ e ∈ acc ++ [(h, ([] : List String))], e.2 = ([] : List String) := by
        intro e he
        rcases List.mem_append.mp he with he | he
        · exact h1 e he
        · simp at he
          rw [he]
      have h2a : ((acc ++ [(h, ([] : List String))]).map Prod.fst).Nodup := by
        rw [List.map_append]
        simp only [List.map_cons, List.map_nil]
        rw [List.nodup_append]
        refine ⟨h2, List.nodup_singleton h, ?_⟩
        intro x hx hx1
        simp only [List.mem_singleton] at hx1
        subst hx1
        exact hmem hx
      obtain ⟨g1, g2, g3⟩ := ih (acc ++ [(h, [])]) h1a h2a
      refine ⟨g1, g2, ?_⟩
      intro x
      rw [g3 x, List.map_append]
      simp only [List.map_cons, List.map_nil, List.mem_append, List.mem_singleton, List.mem_cons]
      tauto

theorem initSections_snd (headers : List String) :
    ∀ e ∈ initSections headers, e.2 = ([] : List String) :=
  (initSections_invariant headers [] (by simp) (by simp)).1

theorem initSections_nodup (headers : List String) :
    ((initSections headers).map Prod.fst).Nodup :=
  (initSections_invariant headers [] (by simp) (by simp)).2.1

theorem mem_initSections (headers : List String) (x : String) :
    x ∈ (initSections headers).map Prod.fst ↔ x ∈ headers := by
  have := (initSections_invariant headers [] (by simp) (by simp)).2.2 x
  simpa [initSections] using this

theorem initSections_flatten (headers : List String) :
    ((initSections headers).map Prod.snd).flatten = [] := by
  rw [List.flatten_eq_nil_iff]
  intro l hl
  rcases List.mem_map.mp hl with ⟨e, he, rfl⟩
  exact initSections_snd headers e he

/-- `group_sections` succeeds exactly when every zipped topic is a
proposed header, and then the groups' concatenation is a permutation of
the zipped chunks. -/
theorem group_sections_some (topics chunks headers : List String)
    (h : ∀ p ∈ topics.zip chunks, p.1 ∈ headers) :
    ∃ gs, group_sections topics chunks headers = some gs ∧
      ((gs.map Prod.snd).flatten).Perm ((topics.zip chunks).map Prod.snd) := by
  obtain ⟨gs, hgs⟩ := groupInto_of_mem (topics.zip chunks) (initSections headers) (by
    intro p hp
    rw [mem_initSections]
    exact h p hp)
  refine ⟨gs, hgs, ?_⟩
  have := groupInto_perm (topics.zip chunks) (initSections headers) gs hgs
  rw [initSections_flatten] at this
  simpa using this

theorem group_sections_none (topics chunks headers : List String)
    (h : ∃ p ∈ topics.zip chunks, p.1 ∉ headers) :
    group_sections topics chunks headers = none := by
  apply groupInto_none
  obtain ⟨p, hp, hbad⟩ := h
  exact ⟨p, hp, by rw [mem_initSections]; exact hbad⟩

/-- Entry-wise description of a successful `group_sections`: each group is
the ordered sub-sequence of chunks classified under its label. -/
theorem group_sections_char (topics chunks headers : List String)
    (gs : List (String × List String))
    (hgs : group_sections topics chunks headers = some gs) :
    gs = (initSections headers).map
      (fun e => (e.1, ((topics.zip chunks).filter (fun p => p.1 = e.1)).map Prod.snd)) := by
  have := groupInto_char (topics.zip chunks) (initSections headers) gs
    (initSections_nodup headers) hgs
  rw [this]
  apply List.map_congr_left
  intro e he
  rw [initSections_snd headers e he]
  simp

/-! ## Trace and branch lemmas -/

theorem expand_none (svc : Service) (fuel : Nat) (toc_path chunks : List String)
    (h : nodeGroups svc toc_path chunks = none) :
    expand svc fuel toc_path chunks = (none, nodeEvents svc toc_path chunks) := by
  simp [expand, h]

theorem expand_some_snd (svc : Service) (fuel : Nat) (toc_path chunks : List String)
    (sections : List (String × List String))
    (h : nodeGroups svc toc_path chunks = some sections) :
    (expand svc fuel toc_path chunks).2
      = nodeEvents svc toc_path chunks
        ++ ((summarize_sections svc fuel toc_path sections).map Prod.snd).flatten := by
  simp only [expand, h]
  split
  · rfl
  · split <;> rfl

theorem expand_some_fst (svc : Service) (fuel : Nat) (toc_path chunks : List String)
    (sections : List (String × List String)) (last : String)
    (h : nodeGroups svc toc_path chunks = some sections)
    (hlast : toc_path.getLast? = some last) :
    (expand svc fuel toc_path chunks).1
      = if ((summarize_sections svc fuel toc_path sections).filterMap Prod.fst).isEmpty
        then some (last ++ "\n\n" ++ sentinelText)
        else some (last ++ "\n\n" ++ String.intercalate "\n\n"
          ((summarize_sections svc fuel toc_path sections).filterMap Prod.fst)) := by
  simp only [expand, h, hlast, List.filterMap_map, Function.id_comp]
  split <;> rfl

theorem eventPath_nodeEvents (svc : Service) (toc_path chunks : List String) :
    ∀ e ∈ nodeEvents svc toc_path chunks, eventPath e = toc_path := by
  intro e he
  simp only [nodeEvents, expandEvents, gistEvents, classifyEvents, List.mem_append,
    List.mem_map, List.mem_singleton] at he
  rcases he with (⟨c, _, rfl⟩ | rfl) | ⟨c, _, rfl⟩ <;> rfl

theorem nodeEvents_no_write (svc : Service) (toc_path chunks : List String) :
    ∀ e ∈ nodeEvents svc toc_path chunks, isWriteCall e = false := by
  intro e he
  simp only [nodeEvents, expandEvents, gistEvents, classifyEvents, List.mem_append,
    List.mem_map, List.mem_singleton] at he
  rcases he with (⟨c, _, rfl⟩ | rfl) | ⟨c, _, rfl⟩ <;> rfl

theorem leafChunks_append (a b : List Event) :
    leafChunks (a ++ b) = leafChunks a ++ leafChunks b := by
  simp [leafChunks]

theorem leafChunks_nodeEvents (svc : Service) (toc_path chunks : List String) :
    leafChunks (nodeEvents svc toc_path chunks) = [] := by
  rw [leafChunks, List.flatten_eq_nil_iff]
  intro l hl
  rcases List.mem_map.mp hl with ⟨e, he, rfl⟩
  have := nodeEvents_no_write svc toc_path chunks e he
  cases e <;> simp_all [isWriteCall, writeCallChunks]

theorem leafChunks_flatten (L : List (List Event)) :
    leafChunks L.flatten = (L.map leafChunks).flatten := by
  induction L with
  | nil => rfl
  | cons l ls ih => simp [List.flatten_cons, leafChunks_append, ih]

theorem length_filterMap_fst_of_ne_none : ∀ (l : List (Option String × List Event)),
    (∀ r ∈ l, r.1 ≠ none) → (l.filterMap Prod.fst).length = l.length := by
  intro l
  induction l with
  | nil => intro _; rfl
  | cons r rs ih =>
    intro h
    have h1 : r.1 ≠ none := h r (List.mem_cons_self r rs)
    cases hr : r.1 with
    | none => exact absurd hr h1
    | some s =>
      simp only [List.filterMap_cons, hr, List.length_cons]
      rw [ih (fun x hx => h x (List.mem_cons_of_mem r hx))]

/-- Every service call made anywhere below a node happens at a path no
longer than `max` of the node's path length and 3. -/
theorem go_depth (svc : Service) : ∀ (fuel : Nat) (toc_path chunks : List String),
    ∀ e ∈ (go svc fuel toc_path chunks).2, (eventPath e).length ≤ max toc_path.length 3 := by
  intro fuel
  induction fuel with
  | zero =>
    intro toc chunks e he
    simp [go] at he
  | succ fuel ih =>
    intro toc chunks e he
    by_cases hb : chunks.length < 5 ∨ 3 ≤ toc.length
    · rw [go_base_eq svc fuel toc chunks hb] at he
      simp only [List.mem_singleton] at he
      subst he
      exact Nat.le_max_left _ _
    · rw [go_rec_eq svc fuel toc chunks hb] at he
      cases hg : nodeGroups svc toc chunks with
      | none =>
        rw [expand_none svc fuel toc chunks hg] at he
        rw [eventPath_nodeEvents svc toc chunks e he]
        exact Nat.le_max_left _ _
      | some sections =>
        rw [expand_some_snd svc fuel toc chunks sections hg] at he
        rcases List.mem_append.mp he with he | he
        · rw [eventPath_nodeEvents svc toc chunks e he]
          exact Nat.le_max_left _ _
        · rcases List.mem_flatten.mp he with ⟨l, hl, hel⟩
          rcases List.mem_map.mp hl with ⟨r, hr, rfl⟩
          simp only [summarize_sections, List.mem_map] at hr
          obtain ⟨s, _, rfl⟩ := hr
          have h2 := ih (toc ++ [s.1]) s.2 e hel
          simp only [List.length_append, List.length_singleton] at h2
          simp only [not_or, Nat.not_lt, Nat.not_le] at hb
          omega

/-- A conforming service (nonempty header proposals, classification
within the proposed set) makes grouping succeed at every expanded node,
and the groups' concatenation is a permutation of the node's chunks. -/
theorem nodeGroups_conforming (svc : Service)
    (hh : ∀ p g, svc.produceHeaders p g ≠ [])
    (hc : ∀ p c hs, hs ≠ [] → svc.classify p c hs ∈ hs)
    (toc_path chunks : List String) :
    ∃ sections, nodeGroups svc toc_path chunks = some sections ∧
      ((sections.map Prod.snd).flatten).Perm chunks := by
  have hhs : nodeHeaders svc toc_path chunks ≠ [] := hh _ _
  have hmem : ∀ p ∈ (nodeTopics svc toc_path chunks).zip chunks,
      p.1 ∈ nodeHeaders svc toc_path chunks := by
    intro p hp
    have h1 := (List.of_mem_zip hp).1
    simp only [nodeTopics, classify_chunks, List.mem_map] at h1
    obtain ⟨c, _, hfc⟩ := h1
    rw [← hfc]
    exact hc _ _ _ hhs
  obtain ⟨gs, hgs, hperm⟩ := group_sections_some _ _ _ hmem
  refine ⟨gs, hgs, ?_⟩
  have hlen : chunks.length ≤ (nodeTopics svc toc_path chunks).length := by
    simp [nodeTopics, classify_chunks]
  rw [List.map_snd_zip _ _ hlen] at hperm
  exact hperm

/-! ## Claims -/

/-- C8: a node that receives fewer than 5 chunks (in particular exactly 4)
takes the base case: its entire service-call trace is the single
write-section invocation on exactly those chunks, so propose-headers,
gist and classify are never called. -/
theorem claim_C8 (svc : Service) (toc_path chunks : List String)
    (h : chunks.length < 5) :
    (massively_summarize svc toc_path chunks).2 = [Event.writeCall toc_path chunks] := by
  unfold massively_summarize
  rw [show (4 : Nat) = 3 + 1 from rfl, go_base_eq svc 3 toc_path chunks (Or.inl h)]

theorem claim_C8_witness :
    (massively_summarize svcPlain ["Doc"] ["c1", "c2", "c3", "c4"]).2
      = [Event.writeCall ["Doc"] ["c1", "c2", "c3", "c4"]] :=
  claim_C8 svcPlain ["Doc"] ["c1", "c2", "c3", "c4"] (by decide)

/-- C6 (amended): on an empty chunk list the node takes the base case, and
write-section IS invoked, on the empty chunk list; the returned body is
the text write-section produced, with the sentinel only as the fallback
when it returns nothing. -/
theorem claim_C6 (svc : Service) (toc_path : List String) (last : String)
    (h : toc_path.getLast? = some last) :
    massively_summarize svc toc_path [] =
      (some (last ++ "\n\n" ++ ((svc.writeSection toc_path []).getD sentinelText)),
       [Event.writeCall toc_path []]) := by
  unfold massively_summarize
  rw [show (4 : Nat) = 3 + 1 from rfl,
    go_base_eq svc 3 toc_path [] (Or.inl (by simp)), h]
  rfl

theorem claim_C6_witness :
    massively_summarize svcPlain ["Doc"] [] =
      (some ("Doc" ++ "\n\n" ++ ((svcPlain.writeSection ["Doc"] []).getD sentinelText)),
       [Event.writeCall ["Doc"] []]) :=
  claim_C6 svcPlain ["Doc"] "Doc" rfl

/-- C6 counterexample: with an empty chunk list the code calls
write-section and uses its text as the body; here the body is not the
sentinel, and the trace contains the write-section call the claim says
never happens. -/
theorem claim_C6_counterexample :
    massively_summarize svcWrites ["Doc"] [] =
      (some "Doc\n\nGenerated text.", [Event.writeCall ["Doc"] []]) ∧
    ("Doc\n\nGenerated text." : String) ≠ "Doc" ++ "\n\n" ++ sentinelText := by
  exact ⟨rfl, by decide⟩

/-- C2: recursion depth is bounded by MaxDepth = 3: a node whose path
already has length ≥ 3 takes the base case — its whole trace is the one
write-section call, it is never expanded — and every service call
anywhere in the recursion tree happens at a path of length at most
max(len(toc_path), 3), however many labels the service proposes. -/
theorem claim_C2 (svc : Service) (toc_path chunks : List String) :
    (3 ≤ toc_path.length →
      (massively_summarize svc toc_path chunks).2 = [Event.writeCall toc_path chunks]) ∧
    (∀ e ∈ (massively_summarize svc toc_path chunks).2,
      (eventPath e).length ≤ max toc_path.length 3) := by
  constructor
  · intro h
    unfold massively_summarize
    rw [show (4 : Nat) = 3 + 1 from rfl, go_base_eq svc 3 toc_path chunks (Or.inr h)]
  · exact go_depth svc 4 toc_path chunks

theorem claim_C2_witness :
    (massively_summarize svcPlain ["a", "b", "c"] ["x"]).2
      = [Event.writeCall ["a", "b", "c"] ["x"]] ∧
    (eventPath (Event.writeCall ["a", "b", "c"] ["x"])).length
      ≤ max (["a", "b", "c"] : List String).length 3 :=
  ⟨(claim_C2 svcPlain ["a", "b", "c"] ["x"]).1 (by decide),
   (claim_C2 svcPlain ["a", "b", "c"] ["x"]).2 (Event.writeCall ["a", "b", "c"] ["x"])
     (by decide)⟩

/-- C3 (amended): `group_sections` has no reserved "unclassified" group.
When every classified topic is among the proposed headers, grouping
succeeds and every chunk lands in exactly one group (the concatenation
of the groups is a permutation of the chunks); but one topic outside
the proposed set makes `group_sections` raise KeyError (modelled as
`none`) instead of placing that chunk in a reserved fallback group. -/
theorem claim_C3 (topics chunks headers : List String)
    (hlen : topics.length = chunks.length) :
    ((∀ t ∈ topics, t ∈ headers) →
      ∃ gs, group_sections topics chunks headers = some gs ∧
        ((gs.map Prod.snd).flatten).Perm chunks) ∧
    ((∃ p ∈ topics.zip chunks, p.1 ∉ headers) →
      group_sections topics chunks headers = none) := by
  constructor
  · intro h
    obtain ⟨gs, hgs, hperm⟩ := group_sections_some topics chunks headers
      (fun p hp => h p.1 (List.of_mem_zip hp).1)
    refine ⟨gs, hgs, ?_⟩
    rw [List.map_snd_zip _ _ (le_of_eq hlen.symm)] at hperm
    exact hperm
  · exact group_sections_none topics chunks headers

theorem claim_C3_witness :
    (∃ gs, group_sections ["A", "B", "A"] ["c1", "c2", "c3"] ["A", "B"] = some gs ∧
      ((gs.map Prod.snd).flatten).Perm ["c1", "c2", "c3"]) ∧
    group_sections ["X", "Q"] ["d1", "d2"] ["X", "Y"] = none :=
  ⟨(claim_C3 ["A", "B", "A"] ["c1", "c2", "c3"] ["A", "B"] rfl).1 (by decide),
   (claim_C3 ["X", "Q"] ["d1", "d2"] ["X", "Y"] rfl).2 (by decide)⟩

/-- C3 counterexample: a classification outcome outside the proposed
header set does not land in an "unclassified" group — `group_sections`
fails outright (the Python `KeyError`), so no grouping is produced at
all and the chunk is in no group. -/
theorem claim_C3_counterexample :
    group_sections ["Z"] ["c1"] ["A"] = none := rfl

/-- C9: whenever grouping succeeds, the group stored under any label is
exactly the sequence of chunks classified under that label, in the
relative order they had in the input sequence (the filter of the
positionally zipped topic/chunk pairs). -/
theorem claim_C9 (topics chunks headers : List String)
    (gs : List (String × List String)) (label : String) (group : List String)
    (hgs : group_sections topics chunks headers = some gs)
    (hmem : (label, group) ∈ gs) :
    group = ((topics.zip chunks).filter (fun p => p.1 = label)).map Prod.snd := by
  have hchar := group_sections_char topics chunks headers gs hgs
  rw [hchar] at hmem
  rcases List.mem_map.mp hmem with ⟨e, _, heq⟩
  have h1 : label = e.1 := (congrArg Prod.fst heq).symm
  have h2 : group = ((topics.zip chunks).filter (fun p => p.1 = e.1)).map Prod.snd :=
    (congrArg Prod.snd heq).symm
  rw [h2, h1]

theorem claim_C9_witness :
    (["c1", "c2", "c3"] : List String)
      = (((["A", "A", "A"].zip ["c1", "c2", "c3"]).filter
          (fun p => p.1 = "A")).map Prod.snd) :=
  claim_C9 ["A", "A", "A"] ["c1", "c2", "c3"] ["A"] [("A", ["c1", "c2", "c3"])] "A"
    ["c1", "c2", "c3"] (by decide) (by decide)

/-- C4 (amended): when propose-headers returns an empty label set for a
node that expands (≥ 5 chunks, path shorter than 3), the code does NOT
fall back to the base case: the grouping dict is empty, the first chunk
raises KeyError (modelled `none`), no Section is produced, and
write-section is never invoked anywhere in the call. -/
theorem claim_C4 (svc : Service) (toc_path chunks : List String)
    (hc5 : 5 ≤ chunks.length) (hp : toc_path.length < 3)
    (hh : nodeHeaders svc toc_path chunks = []) :
    (massively_summarize svc toc_path chunks).1 = none ∧
    ∀ e ∈ (massively_summarize svc toc_path chunks).2, isWriteCall e = false := by
  have hb : ¬(chunks.length < 5 ∨ 3 ≤ toc_path.length) := by omega
  have hgs : nodeGroups svc toc_path chunks = none := by
    apply group_sections_none
    cases chunks with
    | nil => simp at hc5
    | cons c cs =>
      refine ⟨(svc.classify toc_path c (nodeHeaders svc toc_path (c :: cs)), c), ?_, ?_⟩
      · show _ ∈ (nodeTopics svc toc_path (c :: cs)).zip (c :: cs)
        simp only [nodeTopics, classify_chunks, List.map_cons, List.zip_cons_cons]
        exact List.mem_cons_self _ _
      · rw [hh]
        exact List.not_mem_nil _
  unfold massively_summarize
  rw [show (4 : Nat) = 3 + 1 from rfl, go_rec_eq svc 3 toc_path chunks hb,
    expand_none svc 3 toc_path chunks hgs]
  exact ⟨rfl, nodeEvents_no_write svc toc_path chunks⟩

theorem claim_C4_witness :
    (massively_summarize svcNoHeaders ["Doc"] ["d1", "d2", "d3", "d4", "d5", "d6"]).1 = none ∧
    ∀ e ∈ (massively_summarize svcNoHeaders ["Doc"] ["d1", "d2", "d3", "d4", "d5", "d6"]).2,
      isWriteCall e = false :=
  claim_C4 svcNoHeaders ["Doc"] ["d1", "d2", "d3", "d4", "d5", "d6"]
    (by decide) (by decide) rfl

/-- C4 counterexample: five chunks, path below the depth bound, a service
proposing zero headers: the node does not produce a Section (the claim
says a Section is still produced) and write-section is never invoked
(the claim says it is invoked directly). -/
theorem claim_C4_counterexample :
    (massively_summarize svcNoHeaders ["Doc"] ["c1", "c2", "c3", "c4", "c5"]).1 = none ∧
    (massively_summarize svcNoHeaders ["Doc"] ["c1", "c2", "c3", "c4", "c5"]).2.all
      (fun e => !isWriteCall e) = true :=
  ⟨rfl, by decide⟩

/-- C7 (amended): `summarize_sections` issues one recursive call per
label of the grouping, in key order, INCLUDING labels whose group is
empty; an empty group's child then takes the base case, invoking
write-section on zero chunks — empty groups are not skipped. -/
theorem claim_C7 (svc : Service) (fuel : Nat) (toc_path : List String)
    (sections : List (String × List String)) (label : String) (group : List String)
    (hmem : (label, group) ∈ sections) :
    go svc fuel (toc_path ++ [label]) group ∈ summarize_sections svc fuel toc_path sections ∧
    (group = [] → 0 < fuel →
      (go svc fuel (toc_path ++ [label]) group).2
        = [Event.writeCall (toc_path ++ [label]) []]) := by
  constructor
  · have := List.mem_map_of_mem
      (fun s : String × List String => go svc fuel (toc_path ++ [s.1]) s.2) hmem
    simpa [summarize_sections] using this
  · rintro rfl hf
    cases fuel with
    | zero => omega
    | succ f =>
      rw [go_base_eq svc f (toc_path ++ [label]) [] (Or.inl (by simp))]

theorem claim_C7_witness :
    (go svcPlain 3 (["Doc"] ++ ["B"]) [] ∈ summarize_sections svcPlain 3 ["Doc"]
      [("A", ["c1"]), ("B", [])]) ∧
    (([] : List String) = [] → 0 < 3 →
      (go svcPlain 3 (["Doc"] ++ ["B"]) []).2 = [Event.writeCall (["Doc"] ++ ["B"]) []]) :=
  claim_C7 svcPlain 3 ["Doc"] [("A", ["c1"]), ("B", [])] "B" [] (by decide)

/-- C7 counterexample: a service that proposes labels A and B but
classifies every chunk under A: the trace of the run contains a
write-section call at path ["Doc", "B"] with zero chunks — a recursive
call WAS issued for the empty-group label B, which the claim says is
skipped. -/
theorem claim_C7_counterexample :
    Event.writeCall ["Doc", "B"] [] ∈
      (massively_summarize svcOneSided ["Doc"] ["c1", "c2", "c3", "c4", "c5"]).2 := by
  decide

/-- C5 (amended): the merge's `is not None` filter discards only children
that returned no value at all (a failed recursive worker, modelled
`none`); a child whose body is the sentinel text is an ordinary string
and is kept. When every child returns a value and there is at least one
group, the node's body is the blank-line join of ALL children's texts —
sentinel-bodied children included — and the node's own body is the
single sentinel only when the filtered list is empty. -/
theorem claim_C5 (svc : Service) (toc_path chunks : List String) (last : String)
    (sections : List (String × List String))
    (hb : ¬(chunks.length < 5 ∨ 3 ≤ toc_path.length))
    (hgs : nodeGroups svc toc_path chunks = some sections)
    (hne : sections ≠ [])
    (hlast : toc_path.getLast? = some last)
    (hall : ∀ r ∈ summarize_sections svc 3 toc_path sections, r.1 ≠ none) :
    (massively_summarize svc toc_path chunks).1
      = some (last ++ "\n\n" ++ String.intercalate "\n\n"
          ((summarize_sections svc 3 toc_path sections).filterMap Prod.fst)) ∧
    ((summarize_sections svc 3 toc_path sections).filterMap Prod.fst).length
      = sections.length := by
  have hlen := length_filterMap_fst_of_ne_none (summarize_sections svc 3 toc_path sections) hall
  have hlen2 : (summarize_sections svc 3 toc_path sections).length = sections.length := by
    simp [summarize_sections]
  have hlen3 : ((summarize_sections svc 3 toc_path sections).filterMap Prod.fst).length
      = sections.length := by rw [hlen, hlen2]
  refine ⟨?_, hlen3⟩
  unfold massively_summarize
  rw [show (4 : Nat) = 3 + 1 from rfl, go_rec_eq svc 3 toc_path chunks hb,
    expand_some_fst svc 3 toc_path chunks sections last hgs hlast]
  have hv : ((summarize_sections svc 3 toc_path sections).filterMap Prod.fst) ≠ [] := by
    intro hnil
    apply hne
    rw [hnil] at hlen3
    simp only [List.length_nil] at hlen3
    exact List.eq_nil_of_length_eq_zero hlen3.symm
  rw [if_neg (by rw [List.isEmpty_iff]; exact hv)]

theorem claim_C5_witness :
    (massively_summarize svcSilent ["Doc"] ["c1", "c2", "c3", "c4", "c5"]).1
      = some ("Doc" ++ "\n\n" ++ String.intercalate "\n\n"
          ((summarize_sections svcSilent 3 ["Doc"]
            [("A", ["c1", "c2", "c3"]), ("B", ["c4", "c5"])]).filterMap Prod.fst)) ∧
    ((summarize_sections svcSilent 3 ["Doc"]
        [("A", ["c1", "c2", "c3"]), ("B", ["c4", "c5"])]).filterMap Prod.fst).length
      = ([("A", ["c1", "c2", "c3"]), ("B", ["c4", "c5"])]
          : List (String × List String)).length :=
  claim_C5 svcSilent ["Doc"] ["c1", "c2", "c3", "c4", "c5"] "Doc"
    [("A", ["c1", "c2", "c3"]), ("B", ["c4", "c5"])]
    (by decide) (by decide) (by decide) rfl (by decide)

/-- C5 counterexample: both children of the root return sentinel-bodied
sections; the parent's body is their concatenation, with the sentinel
text appearing twice under the child headings — not the single sentinel
the claim requires, and no sentinel-bodied sibling is discarded. -/
theorem claim_C5_counterexample :
    (massively_summarize svcSilent ["Doc"] ["c1", "c2", "c3", "c4", "c5"]).1
      = some ("Doc\n\nA\n\nNo content generated for this section.\n\nB\n\nNo content generated for this section.") ∧
    ("Doc\n\nA\n\nNo content generated for this section.\n\nB\n\nNo content generated for this section." : String)
      ≠ "Doc" ++ "\n\n" ++ sentinelText :=
  ⟨rfl, by decide⟩

/-- Every chunk of a node reaches exactly one write-section leaf below
it, provided the service is conforming. -/
theorem go_leaf_perm (svc : Service)
    (hh : ∀ p g, svc.produceHeaders p g ≠ [])
    (hc : ∀ p c hs, hs ≠ [] → svc.classify p c hs ∈ hs) :
    ∀ (fuel : Nat) (toc_path chunks : List String), 3 - toc_path.length < fuel →
      (leafChunks (go svc fuel toc_path chunks).2).Perm chunks := by
  intro fuel
  induction fuel with
  | zero => intro toc chunks hf; omega
  | succ fuel ih =>
    intro toc chunks hf
    by_cases hb : chunks.length < 5 ∨ 3 ≤ toc.length
    · rw [go_base_eq svc fuel toc chunks hb]
      simp [leafChunks, writeCallChunks]
    · rw [go_rec_eq svc fuel toc chunks hb]
      obtain ⟨sections, hgs, hperm⟩ := nodeGroups_conforming svc hh hc toc chunks
      rw [expand_some_snd svc fuel toc chunks sections hgs]
      rw [leafChunks_append, leafChunks_nodeEvents]
      rw [List.nil_append, leafChunks_flatten]
      have hcong : List.Forall₂ (fun a b => List.Perm a b)
          (((summarize_sections svc fuel toc sections).map Prod.snd).map leafChunks)
          (sections.map Prod.snd) := by
        rw [summarize_sections, List.map_map, List.map_map]
        rw [List.forall₂_map_left_iff, List.forall₂_map_right_iff]
        rw [List.forall₂_same]
        intro s _
        simp only [not_or, Nat.not_lt, Nat.not_le] at hb
        apply ih
        simp only [List.length_append, List.length_singleton]
        omega
      exact (List.Perm.flatten_congr hcong).trans hperm

/-- C1 (amended): for a conforming language service — every header
proposal is nonempty and classification stays within the proposed set —
the multiset of chunks reaching the write-section leaves of the
recursion tree is a permutation of the input chunks: no chunk is
duplicated or lost at any recursion level (each expanded node's
grouping puts each chunk in exactly one group, `nodeGroups_conforming`).
Without the conformance assumption the property fails: see the
counterexample, where a non-conforming classification makes the node
fail and its chunks reach no leaf. -/
theorem claim_C1 (svc : Service) (toc_path chunks : List String)
    (hh : ∀ p g, svc.produceHeaders p g ≠ [])
    (hc : ∀ p c hs, hs ≠ [] → svc.classify p c hs ∈ hs) :
    (leafChunks (massively_summarize svc toc_path chunks).2).Perm chunks :=
  go_leaf_perm svc hh hc 4 toc_path chunks (by omega)

theorem claim_C1_witness :
    (leafChunks (massively_summarize svcPlain ["Doc"]
        ["c1", "c2", "c3", "c4", "c5", "c6"]).2).Perm
      ["c1", "c2", "c3", "c4", "c5", "c6"] :=
  claim_C1 svcPlain ["Doc"] ["c1", "c2", "c3", "c4", "c5", "c6"]
    (fun p g => by simp [svcPlain])
    (fun p c hs h => by
      cases hs with
      | nil => exact absurd rfl h
      | cons a t => exact List.mem_cons_self a t)

/-- C1 counterexample: a service that classifies every chunk as "Z"
while proposing only ["A"]: grouping fails with KeyError, the run makes
no write-section call at all, and the five input chunks reach no leaf —
the leaf multiset is not a permutation of the input. -/
theorem claim_C1_counterexample :
    ¬ (leafChunks (massively_summarize svcRogue ["Doc"]
        ["c1", "c2", "c3", "c4", "c5"]).2).Perm
      ["c1", "c2", "c3", "c4", "c5"] := by
  decide

/-- A conforming service always yields a section text that opens with
the last path element and two newlines. -/
theorem go_fst_some (svc : Service)
    (hh : ∀ p g, svc.produceHeaders p g ≠ [])
    (hc : ∀ p c hs, hs ≠ [] → svc.classify p c hs ∈ hs) :
    ∀ (fuel : Nat) (toc_path chunks : List String) (last : String),
      3 - toc_path.length < fuel → toc_path.getLast? = some last →
      ∃ rest, (go svc fuel toc_path chunks).1 = some (last ++ "\n\n" ++ rest) := by
  intro fuel
  induction fuel with
  | zero => intro toc chunks last hf; omega
  | succ fuel ih =>
    intro toc chunks last hf hlast
    by_cases hb : chunks.length < 5 ∨ 3 ≤ toc.length
    · rw [go_base_eq svc fuel toc chunks hb]
      simp only [hlast, Option.map_some']
      exact ⟨_, rfl⟩
    · rw [go_rec_eq svc fuel toc chunks hb]
      obtain ⟨sections, hgs, _⟩ := nodeGroups_conforming svc hh hc toc chunks
      rw [expand_some_fst svc fuel toc chunks sections last hgs hlast]
      by_cases hv : ((summarize_sections svc fuel toc sections).filterMap Prod.fst).isEmpty
      · exact ⟨sentinelText, by rw [if_pos hv]⟩
      · exact ⟨_, by rw [if_neg hv]⟩

/-- C10 (amended): the claim holds exactly for conforming services
(nonempty header proposals, classification within the proposed set):
then every call returns a string — never the modelled `None`/failure —
beginning with the last path element and two newlines, and every
recursive child result is likewise non-None, so the `is not None`
filter removes no child. For a non-conforming service the call can
fail and produce no string at all: see the counterexample. -/
theorem claim_C10 (svc : Service) (toc_path chunks : List String) (last : String)
    (hh : ∀ p g, svc.produceHeaders p g ≠ [])
    (hc : ∀ p c hs, hs ≠ [] → svc.classify p c hs ∈ hs)
    (hlast : toc_path.getLast? = some last) :
    (∃ rest, (massively_summarize svc toc_path chunks).1 = some (last ++ "\n\n" ++ rest)) ∧
    (∀ sections, nodeGroups svc toc_path chunks = some sections →
      ∀ r ∈ summarize_sections svc 3 toc_path sections, r.1 ≠ none) := by
  constructor
  · exact go_fst_some svc hh hc 4 toc_path chunks last (by omega) hlast
  · intro sections _ r hr
    simp only [summarize_sections, List.mem_map] at hr
    obtain ⟨s, _, hrs⟩ := hr
    obtain ⟨rest, hrest⟩ := go_fst_some svc hh hc 3 (toc_path ++ [s.1]) s.2 s.1
      (by simp only [List.length_append, List.length_singleton]; omega)
      (List.getLast?_concat _)
    rw [← hrs, hrest]
    exact Option.some_ne_none _

theorem claim_C10_witness :
    (∃ rest, (massively_summarize svcPlain ["Doc"]
        ["e1", "e2", "e3", "e4", "e5"]).1 = some ("Doc" ++ "\n\n" ++ rest)) ∧
    (∀ sections, nodeGroups svcPlain ["Doc"] ["e1", "e2", "e3", "e4", "e5"] = some sections →
      ∀ r ∈ summarize_sections svcPlain 3 ["Doc"] sections, r.1 ≠ none) :=
  claim_C10 svcPlain ["Doc"] ["e1", "e2", "e3", "e4", "e5"] "Doc"
    (fun p g => by simp [svcPlain])
    (fun p c hs h => by
      cases hs with
      | nil => exact absurd rfl h
      | cons a t => exact List.mem_cons_self a t)
    rfl

/-- C10 counterexample: with a non-conforming classifier the call fails
(the Python raises KeyError), returning no string at all — refuting
"always returns a string". -/
theorem claim_C10_counterexample :
    (massively_summarize svcRogue ["Doc"] ["d1", "d2", "d3", "d4", "d5"]).1 = none := rfl

end Summarizer
